import Mathlib

/-!
Verification of the stonks ranking engine: a shallow embedding of the
classification, normalization, scoring and ranking code
(`services/indicator_calculator.py`, `services/ranking_service.py`,
`services/asset_classifier.py`, `models/stock.py`, `config.py`) with proofs
about its behaviour.  Python floats are modelled as exact rationals,
Python `None` as `Option.none`, dictionaries as association lists in
insertion order, and the SQL store as a list of rows in row order
(`ORDER BY` is modelled as a stable sort, matching the store's
deterministic enumeration of equal keys).
-/

namespace Stonks

/-- Association-list lookup, mirroring Python dictionary lookup
(first matching key wins). -/
def assocBy {κ α : Type} [DecidableEq κ] : List (κ × α) → κ → Option α
  | [], _ => none
  | (k, v) :: rest, key => if key = k then some v else assocBy rest key

/-- Indicator range table `Config.INDICATOR_LIMITS` (config.py):
`(name, min, max)`. -/
def indicatorLimits : List (String × ℚ × ℚ) :=
  [("dy", 0, 0.20), ("pl", 0, 50), ("pvp", 0, 10), ("roe", 0, 0.50),
   ("margem_liquida", -0.20, 0.30)]

/-- Range table returned by `IndicatorCalculator.get_fii_indicator_limits`. -/
def fiiIndicatorLimits : List (String × ℚ × ℚ) :=
  [("dy", 0, 0.25), ("pvp", 0, 2.0), ("vacancia", 0, 0.30),
   ("liquidez", 0, 1000000)]

/-- Range table returned by `IndicatorCalculator.get_etf_indicator_limits`. -/
def etfIndicatorLimits : List (String × ℚ × ℚ) :=
  [("dy", 0, 0.15), ("desconto_premium", -0.10, 0.10), ("taxa_adm", 0, 0.05),
   ("liquidez", 0, 10000000), ("volume", 0, 10000000)]

/-- Range-table selection in `normalize_indicator_by_class`: `fii` and `etf`
have their own tables, every other class string uses the default table. -/
def limitsForClass (cls : String) : List (String × ℚ × ℚ) :=
  if cls = "fii" then fiiIndicatorLimits
  else if cls = "etf" then etfIndicatorLimits
  else indicatorLimits

/-- The lower-is-better indicator set of `normalize_indicator_by_class`. -/
def lowerIsBetter : List String :=
  ["pl", "pvp", "psr", "ev_ebit", "ev_ebitda", "taxa_adm"]

/-- `IndicatorCalculator.normalize_indicator_by_class`: min-max scaling
clamped to `[0,1]`, inverted for the lower-is-better indicators; `none` when
the value is missing or the indicator is not in the class's range table. -/
def normalize_indicator_by_class (value : Option ℚ) (ind cls : String) : Option ℚ :=
  match value with
  | none => none
  | some v =>
    match assocBy (limitsForClass cls) ind with
    | none => none
    | some (mn, mx) =>
      if ind ∈ lowerIsBetter then
        if v ≤ mn then some 1
        else if mx ≤ v then some 0
        else some (1 - (v - mn) / (mx - mn))
      else
        if v ≤ mn then some 0
        else if mx ≤ v then some 1
        else some ((v - mn) / (mx - mn))

/-- Indicator-name to field-name maps of
`IndicatorCalculator.get_indicators_for_class`. -/
def indicatorsForClass (cls : String) : List (String × String) :=
  if cls = "fii" then
    [("dy", "div_yield"), ("pvp", "pvp"), ("vacancia", "vacancia"),
     ("yield_mensal", "div_yield"), ("liquidez", "liquidity")]
  else if cls = "etf" then
    [("dy", "div_yield"), ("desconto_premium", "desconto_premium"),
     ("taxa_adm", "taxa_adm"), ("liquidez", "liquidity"), ("volume", "volume")]
  else if cls = "bdr" then
    [("dy", "div_yield"), ("pl", "pl"), ("pvp", "pvp"), ("roe", "roe"),
     ("margem_liquida", "margem_liquida"), ("roic", "roic")]
  else
    [("dy", "div_yield"), ("pl", "pl"), ("pvp", "pvp"), ("roe", "roe"),
     ("margem_liquida", "margem_liquida"), ("roic", "roic"),
     ("margem_ebit", "margem_ebit"), ("liquidez_corr", "liquidity")]

/-- `indicators.get(indicator, indicator)` in `calculate_score_by_class`. -/
def fieldForIndicator (cls ind : String) : String :=
  (assocBy (indicatorsForClass cls) ind).getD ind

/-- `IndicatorCalculator.get_weights_for_class`: fixed internal weight maps
for `fii` and `etf`, the caller's weights for every other class. -/
def weightsForClass (cls : String) (weights : List (String × ℚ)) :
    List (String × ℚ) :=
  if cls = "fii" then
    [("dy", 0.40), ("pvp", 0.30), ("vacancia", 0.15), ("liquidez", 0.15)]
  else if cls = "etf" then
    [("dy", 0.30), ("desconto_premium", 0.35), ("liquidez", 0.20),
     ("volume", 0.15)]
  else weights

/-- One iteration of the scoring loop in `calculate_score_by_class`:
skip weights `≤ 0`, look the raw value up by field name, normalize, and
accumulate `(score, total_weight)` when normalization succeeds. -/
def scoreStep (data : String → Option ℚ) (cls : String) (acc : ℚ × ℚ)
    (p : String × ℚ) : ℚ × ℚ :=
  if p.2 ≤ 0 then acc
  else
    match normalize_indicator_by_class (data (fieldForIndicator cls p.1)) p.1 cls with
    | some n => (acc.1 + n * p.2, acc.2 + p.2)
    | none => acc

/-- `IndicatorCalculator.calculate_score_by_class` (the raw data dictionary
is modelled as a field-name to optional-value function). -/
def calculate_score_by_class (data : String → Option ℚ)
    (weights : List (String × ℚ)) (cls : String) : Option ℚ :=
  let st := (weightsForClass cls weights).foldl (scoreStep data cls) (0, 0)
  if 0 < st.2 then some (st.1 / st.2 * 100) else none

/-- The usable entries of a weight list: the `(normalized, weight)` pairs with
positive weight whose raw value is present and normalizes to a value. -/
def usableEntries (data : String → Option ℚ) (cls : String)
    (wl : List (String × ℚ)) : List (ℚ × ℚ) :=
  wl.filterMap (fun p =>
    if 0 < p.2 then
      (normalize_indicator_by_class (data (fieldForIndicator cls p.1)) p.1 cls).map
        (fun n => (n, p.2))
    else none)

/-- Total weight actually used by the scoring loop. -/
def usableWeight (data : String → Option ℚ) (cls : String)
    (wl : List (String × ℚ)) : ℚ :=
  ((usableEntries data cls wl).map Prod.snd).sum

/-- Weighted normalized score actually accumulated by the scoring loop. -/
def usableScore (data : String → Option ℚ) (cls : String)
    (wl : List (String × ℚ)) : ℚ :=
  ((usableEntries data cls wl).map (fun q => q.1 * q.2)).sum

theorem scoreStep_foldl (data : String → Option ℚ) (cls : String)
    (wl : List (String × ℚ)) (a b : ℚ) :
    wl.foldl (scoreStep data cls) (a, b) =
      (a + usableScore data cls wl, b + usableWeight data cls wl) := by
  induction wl generalizing a b with
  | nil => simp [usableScore, usableWeight, usableEntries]
  | cons p rest ih =>
    rcases le_or_lt p.2 0 with hw | hw
    · have hentries : usableEntries data cls (p :: rest) = usableEntries data cls rest := by
        simp [usableEntries, List.filterMap_cons, not_lt.mpr hw]
      simp only [List.foldl_cons, scoreStep, if_pos hw, usableScore, usableWeight, hentries]
      exact ih a b
    · cases hn : normalize_indicator_by_class
        (data (fieldForIndicator cls p.1)) p.1 cls with
      | none =>
        have hentries : usableEntries data cls (p :: rest) = usableEntries data cls rest := by
          simp [usableEntries, List.filterMap_cons, hw, hn]
        simp only [List.foldl_cons, scoreStep, if_neg (not_le.mpr hw), hn,
          usableScore, usableWeight, hentries]
        exact ih a b
      | some n =>
        have hentries : usableEntries data cls (p :: rest) =
            (n, p.2) :: usableEntries data cls rest := by
          simp [usableEntries, List.filterMap_cons, hw, hn]
        simp only [List.foldl_cons, scoreStep, if_neg (not_le.mpr hw), hn,
          usableScore, usableWeight, hentries, List.map_cons, List.sum_cons]
        rw [ih]
        simp only [Prod.mk.injEq, usableScore, usableWeight]
        exact ⟨by ring, by ring⟩

theorem usableWeight_nonneg (data : String → Option ℚ) (cls : String)
    (wl : List (String × ℚ)) : 0 ≤ usableWeight data cls wl := by
  unfold usableWeight
  apply List.sum_nonneg
  intro x hx
  simp only [List.mem_map] at hx
  obtain ⟨q, hq, rfl⟩ := hx
  simp only [usableEntries, List.mem_filterMap] at hq
  obtain ⟨p, _, hp⟩ := hq
  by_cases h : 0 < p.2
  · rw [if_pos h] at hp
    cases hn : normalize_indicator_by_class
        (data (fieldForIndicator cls p.1)) p.1 cls with
    | none => rw [hn] at hp; simp at hp
    | some n =>
      rw [hn] at hp
      simp only [Option.map_some', Option.some.injEq] at hp
      subst hp
      exact le_of_lt h
  · rw [if_neg h] at hp; simp at hp

/-- C1: the scoring loop of `calculate_score_by_class` accumulates score and
total weight over exactly the positive-weight entries whose raw value is
present and normalizes to a value (missing indicators contribute nothing);
it returns `none` exactly when that total weight is zero, and otherwise
`(score / totalWeight) * 100`. -/
theorem score_by_class_renormalizes (data : String → Option ℚ)
    (weights : List (String × ℚ)) (cls : String) :
    calculate_score_by_class data weights cls =
      (if usableWeight data cls (weightsForClass cls weights) = 0 then none
       else some (usableScore data cls (weightsForClass cls weights) /
                  usableWeight data cls (weightsForClass cls weights) * 100)) := by
  unfold calculate_score_by_class
  rw [show ((0 : ℚ), (0 : ℚ)) = ((0 : ℚ), (0 : ℚ)) from rfl, scoreStep_foldl]
  simp only [zero_add]
  rcases lt_or_eq_of_le (usableWeight_nonneg data cls (weightsForClass cls weights)) with h | h
  · rw [if_pos h, if_neg (ne_of_gt h)]
  · rw [if_neg (by rw [← h]; exact lt_irrefl 0), if_pos h.symm]

theorem limits_min_lt_max (cls ind : String) (mn mx : ℚ)
    (h : assocBy (limitsForClass cls) ind = some (mn, mx)) : mn < mx := by
  unfold limitsForClass at h
  split at h <;> [skip; split at h] <;>
    simp only [indicatorLimits, fiiIndicatorLimits, etfIndicatorLimits, assocBy] at h <;>
    (repeat' split at h) <;> simp_all <;> (rcases h with ⟨h1, h2⟩) <;> rw [← h1, ← h2] <;> norm_num

/-- C3: `normalize_indicator_by_class` returns `none` exactly when the value
is missing or the `(indicator, class)` pair is absent from the class's range
table, and any value it does return lies in the closed interval `[0,1]`. -/
theorem normalize_none_iff_and_range (v : Option ℚ) (ind cls : String) :
    (normalize_indicator_by_class v ind cls = none ↔
      v = none ∨ assocBy (limitsForClass cls) ind = none) ∧
    (∀ r : ℚ, normalize_indicator_by_class v ind cls = some r → 0 ≤ r ∧ r ≤ 1) := by
  cases v with
  | none => simp [normalize_indicator_by_class]
  | some x =>
    cases hl : assocBy (limitsForClass cls) ind with
    | none => simp [normalize_indicator_by_class, hl]
    | some lim =>
      obtain ⟨mn, mx⟩ := lim
      have hmm : mn < mx := limits_min_lt_max cls ind mn mx hl
      simp only [normalize_indicator_by_class, hl, Option.some.injEq, false_or,
        reduceCtorEq, or_false]
      constructor
      · split <;> split_ifs <;> simp
      · intro r hr
        have key : ∀ y : ℚ, ¬ y ≤ mn → ¬ mx ≤ y → 0 ≤ (y - mn) / (mx - mn) ∧
            (y - mn) / (mx - mn) ≤ 1 := by
          intro y h1 h2
          have hd : (0:ℚ) < mx - mn := by linarith
          constructor
          · apply div_nonneg (by linarith) (le_of_lt hd)
          · rw [div_le_one hd]; linarith
        split at hr <;> split_ifs at hr <;> injection hr with hr <;> subst hr
        · exact ⟨by norm_num, by norm_num⟩
        · exact ⟨by norm_num, by norm_num⟩
        · obtain ⟨k1, k2⟩ := key x (by assumption) (by assumption)
          exact ⟨by linarith, by linarith⟩
        · exact ⟨by norm_num, by norm_num⟩
        · exact ⟨by norm_num, by norm_num⟩
        · obtain ⟨k1, k2⟩ := key x (by assumption) (by assumption)
          exact ⟨by linarith, by linarith⟩

/-- Witness for C3 at a concrete input: normalizing P/E `3` for a common
stock yields `47/50`, which the theorem places in `[0,1]`. -/
theorem normalize_none_iff_and_range_witness : (0:ℚ) ≤ 47/50 ∧ (47:ℚ)/50 ≤ 1 :=
  (normalize_none_iff_and_range (some 3) "pl" "acao").2 (47/50)
    (by simp +decide only [normalize_indicator_by_class, limitsForClass,
          indicatorLimits, assocBy, lowerIsBetter]
        norm_num)

/-- Raw indicator data of the REIT-fund example: dividend yield `0.10` and
P/B `1.0`, every other field missing. -/
def fiiExampleData : String → Option ℚ := fun f =>
  if f = "div_yield" then some 0.10 else if f = "pvp" then some 1 else none

/-- Counterexample for C6: on the REIT-fund example the engine returns
exactly `310/7 ≈ 44.29`, which is not approximately `45.7` (it is below
`44.3`). -/
theorem fii_example_score_not_45_7 :
    calculate_score_by_class fiiExampleData [] "fii" = some (310/7) ∧
    (310:ℚ)/7 < 44.3 := by
  constructor
  · simp +decide only [calculate_score_by_class, weightsForClass, scoreStep,
      List.foldl, fieldForIndicator, indicatorsForClass, assocBy,
      normalize_indicator_by_class, limitsForClass, fiiIndicatorLimits,
      lowerIsBetter, fiiExampleData, Option.getD]
    norm_num
  · norm_num

/-- C6 (amended): on the REIT-fund example, dividend yield normalizes to
`0.40`, P/B normalizes to `0.50`, and the final score is exactly
`(0.40*0.40 + 0.30*0.50)/0.70*100 = 310/7 ≈ 44.3`. -/
theorem fii_example_score :
    normalize_indicator_by_class (some 0.10) "dy" "fii" = some 0.40 ∧
    normalize_indicator_by_class (some 1) "pvp" "fii" = some 0.50 ∧
    calculate_score_by_class fiiExampleData [] "fii" = some (310/7) ∧
    (310:ℚ)/7 = (0.40*0.40 + 0.30*0.50)/0.70*100 := by
  refine ⟨?_, ?_, ?_, by norm_num⟩ <;>
    (simp +decide only [calculate_score_by_class, weightsForClass, scoreStep,
       List.foldl, fieldForIndicator, indicatorsForClass, assocBy,
       normalize_indicator_by_class, limitsForClass, fiiIndicatorLimits,
       lowerIsBetter, fiiExampleData, Option.getD]
     norm_num)

theorem usableEntries_scaled (data : String → Option ℚ) (cls : String)
    (w : List (String × ℚ)) (c : ℚ) (hc : 0 < c) :
    usableEntries data cls (w.map (fun p => (p.1, c * p.2))) =
      (usableEntries data cls w).map (fun q => (q.1, c * q.2)) := by
  induction w with
  | nil => simp [usableEntries]
  | cons p rest ih =>
    have hpos : 0 < c * p.2 ↔ 0 < p.2 := by
      constructor
      · intro h
        by_contra hnp
        exact absurd h (not_lt.mpr (mul_nonpos_of_nonneg_of_nonpos hc.le (not_lt.mp hnp)))
      · intro h; exact mul_pos hc h
    by_cases hp : 0 < p.2
    · cases hn : normalize_indicator_by_class
        (data (fieldForIndicator cls p.1)) p.1 cls with
      | none =>
        simp only [List.map_cons, usableEntries, List.filterMap_cons] at ih ⊢
        rw [if_pos (hpos.mpr hp), if_pos hp, hn]
        simpa [usableEntries] using ih
      | some n =>
        simp only [List.map_cons, usableEntries, List.filterMap_cons] at ih ⊢
        rw [if_pos (hpos.mpr hp), if_pos hp, hn]
        simpa [usableEntries] using ih
    · simp only [List.map_cons, usableEntries, List.filterMap_cons] at ih ⊢
      rw [if_neg (fun h => hp (hpos.mp h)), if_neg hp]
      simpa [usableEntries] using ih

/-- C8: for the classes that use the caller-supplied weight map (`acao` and
`bdr`), scaling every weight by a positive constant leaves the final score
unchanged: renormalization by the total used weight makes the score invariant
under positive rescaling, so weight maps need not sum to one. -/
theorem score_invariant_under_weight_scaling (data : String → Option ℚ)
    (w : List (String × ℚ)) (c : ℚ) (cls : String) (hc : 0 < c)
    (hcls : cls = "acao" ∨ cls = "bdr") :
    calculate_score_by_class data (w.map (fun p => (p.1, c * p.2))) cls =
      calculate_score_by_class data w cls := by
  have hwc : ∀ v : List (String × ℚ), weightsForClass cls v = v := by
    intro v; rcases hcls with h | h <;> subst h <;> simp [weightsForClass]
  unfold calculate_score_by_class
  rw [hwc, hwc, scoreStep_foldl, scoreStep_foldl]
  have hE := usableEntries_scaled data cls w c hc
  have hW : usableWeight data cls (w.map (fun p => (p.1, c * p.2))) =
      c * usableWeight data cls w := by
    simp only [usableWeight, hE, List.map_map]
    rw [show ((fun q : ℚ × ℚ => q.2) ∘ fun q : ℚ × ℚ => (q.1, c * q.2)) =
      (fun q : ℚ × ℚ => c * q.2) from rfl]
    induction usableEntries data cls w with
    | nil => simp
    | cons q rest ih => simp only [List.map_cons, List.sum_cons, ih]; ring
  have hS : usableScore data cls (w.map (fun p => (p.1, c * p.2))) =
      c * usableScore data cls w := by
    simp only [usableScore, hE, List.map_map]
    rw [show ((fun q : ℚ × ℚ => q.1 * q.2) ∘ fun q : ℚ × ℚ => (q.1, c * q.2)) =
      (fun q : ℚ × ℚ => c * (q.1 * q.2)) from by funext q; simp; ring]
    induction usableEntries data cls w with
    | nil => simp
    | cons q rest ih => simp only [List.map_cons, List.sum_cons, ih]; ring
  simp only [zero_add, hW, hS]
  by_cases ht : 0 < usableWeight data cls w
  · rw [if_pos (mul_pos hc ht), if_pos ht, mul_div_mul_left _ _ (ne_of_gt hc)]
  · rw [if_neg (fun h => ht (by nlinarith [not_lt.mp ht])), if_neg ht]

/-- Witness for C8: doubling a one-entry weight map for a common stock leaves
the score unchanged. -/
theorem score_invariant_under_weight_scaling_witness :
    calculate_score_by_class fiiExampleData
        ([("dy", (0.25:ℚ))].map (fun p => (p.1, (2:ℚ) * p.2))) "acao" =
      calculate_score_by_class fiiExampleData [("dy", (0.25:ℚ))] "acao" :=
  score_invariant_under_weight_scaling fiiExampleData [("dy", (0.25:ℚ))] 2 "acao"
    (by norm_num) (Or.inl rfl)

/-- Whitespace characters stripped by Python's `str.strip`. -/
def isWsChar (c : Char) : Bool :=
  c == ' ' || c == '\t' || c == '\n' || c == '\r' || c == '\x0b' || c == '\x0c'

/-- Uppercasing table for the characters relevant to the classifier
(`str.upper` on the ASCII letters, plus the cedilla appearing in the
source's ETF table; other characters are left unchanged). -/
def upTable : List (Char × Char) :=
  [('a', 'A'), ('b', 'B'), ('c', 'C'), ('d', 'D'), ('e', 'E'), ('f', 'F'),
   ('g', 'G'), ('h', 'H'), ('i', 'I'), ('j', 'J'), ('k', 'K'), ('l', 'L'),
   ('m', 'M'), ('n', 'N'), ('o', 'O'), ('p', 'P'), ('q', 'Q'), ('r', 'R'),
   ('s', 'S'), ('t', 'T'), ('u', 'U'), ('v', 'V'), ('w', 'W'), ('x', 'X'),
   ('y', 'Y'), ('z', 'Z'), ('ç', 'Ç')]

/-- Uppercase one character. -/
def upChar (c : Char) : Char := (assocBy upTable c).getD c

/-- Python `str.upper`, character-wise on the modelled alphabet. -/
def pyUpper (l : List Char) : List Char := l.map upChar

/-- Python `str.strip`: drop whitespace from both ends. -/
def pyStrip (l : List Char) : List Char :=
  ((l.dropWhile isWsChar).reverse.dropWhile isWsChar).reverse

/-- The `ticker.upper().strip()` preprocessing of `classify_asset`. -/
def normTicker (t : List Char) : List Char := pyStrip (pyUpper t)

/-- The explicit ETF allow-list `AssetClassifier.ETF_TICKERS`. -/
def etfTickerSet : List (List Char) :=
  (["BOVA11", "BRAX11", "IVVB11", "SMAC11", "ECOO11",
    "MOBI11", "MATB11", "XBOC11", "ISUS11", "RENT11",
    "Find11", "BDRX11", "SPXI11", "SMLL11", "DIVO11",
    "HECT11", "FIND11", "IRFM11", "AÇAO11", "GOVE11",
    "MONEY11", "BITH11", "CRYPT11", "EWZ21", "EWZ31",
    "WDOF11", "WDOV11", "COCE11", "GOLD11", "SOIL11",
    "IMAB11", "FIXA11", "XPLG11", "DEBTP11"] : List String).map String.toList

/-- The ETF ticker initial-segment patterns `AssetClassifier.ETF_PREFIXES`. -/
def etfStarts : List (List Char) :=
  (["BOVA", "BRAX", "IVVB", "SMAC", "ECOO", "MOBI", "MATB",
    "XBOC", "ISUS", "RENT", "BDRX", "SPXI", "SMLL", "DIVO",
    "HECT", "IRFM", "WDOF", "WDOV", "COCE", "GOLD", "SOIL",
    "IMAB", "FIXA", "XPLG", "DEBTP"] : List String).map String.toList

/-- `AssetClassifier._is_etf`: allow-list membership or initial-segment match. -/
def isEtf (u : List Char) : Bool :=
  etfTickerSet.contains u || etfStarts.any (fun p => p.isPrefixOf u)

/-- Depositary-receipt ticker endings. -/
def drSuffixes : List (List Char) := (["34", "35", "33"] : List String).map String.toList

/-- Common-stock ticker endings. -/
def stockSuffixes : List (List Char) :=
  (["3", "4", "5", "6"] : List String).map String.toList

/-- Python `str.endswith` on a tuple of endings. -/
def endsAny (u : List Char) (sfxs : List (List Char)) : Bool :=
  sfxs.any (fun s => s.isSuffixOf u)

/-- `AssetClassifier.classify_asset`: uppercase and strip the ticker, then
apply the rules in priority order (ETF, depositary receipt, REIT fund,
common stock, default). -/
def classify_asset (t : List Char) : String :=
  let u := normTicker t
  if isEtf u then "etf"
  else if endsAny u drSuffixes then "bdr"
  else if ("11".toList).isSuffixOf u then "fii"
  else if endsAny u stockSuffixes then "acao"
  else "acao"

/-- C4: the classifier applies its rules in priority order (ETF allow-list or
ETF pattern first, then suffixes 34/35/33, then 11, then 3/4/5/6, then the
default), and in particular "XPTO11" classifies as a REIT fund and "AAPL34"
as a depositary receipt. -/
theorem classify_priority_and_examples :
    (∀ t : List Char, isEtf (normTicker t) = true → classify_asset t = "etf") ∧
    (∀ t : List Char, isEtf (normTicker t) = false →
      endsAny (normTicker t) drSuffixes = true → classify_asset t = "bdr") ∧
    (∀ t : List Char, isEtf (normTicker t) = false →
      endsAny (normTicker t) drSuffixes = false →
      ("11".toList).isSuffixOf (normTicker t) = true → classify_asset t = "fii") ∧
    (∀ t : List Char, isEtf (normTicker t) = false →
      endsAny (normTicker t) drSuffixes = false →
      ("11".toList).isSuffixOf (normTicker t) = false →
      endsAny (normTicker t) stockSuffixes = true → classify_asset t = "acao") ∧
    (∀ t : List Char, isEtf (normTicker t) = false →
      endsAny (normTicker t) drSuffixes = false →
      ("11".toList).isSuffixOf (normTicker t) = false →
      endsAny (normTicker t) stockSuffixes = false → classify_asset t = "acao") ∧
    classify_asset "XPTO11".toList = "fii" ∧
    classify_asset "AAPL34".toList = "bdr" := by
  refine ⟨?_, ?_, ?_, ?_, ?_, by decide, by decide⟩ <;>
    (intro t
     simp only [classify_asset]
     intros <;> simp_all)

/-- Witness for C4 at concrete tickers: the ETF rule fires first on "BOVA11"
even though it also ends in "11". -/
theorem classify_priority_witness : classify_asset "BOVA11".toList = "etf" :=
  classify_priority_and_examples.1 "BOVA11".toList (by decide)

theorem assocBy_mem {κ α : Type} [DecidableEq κ] {l : List (κ × α)} {k : κ}
    {v : α} (h : assocBy l k = some v) : (k, v) ∈ l := by
  induction l with
  | nil => simp [assocBy] at h
  | cons p rest ih =>
    obtain ⟨pk, pv⟩ := p
    simp only [assocBy] at h
    split at h
    · rename_i heq
      injection h with h
      subst heq; subst h
      exact List.mem_cons_self _ _
    · exact List.mem_cons_of_mem _ (ih h)

theorem upChar_idem (c : Char) : upChar (upChar c) = upChar c := by
  cases h : assocBy upTable c with
  | none => simp [upChar, h]
  | some u =>
    have hm := assocBy_mem h
    simp only [upChar, h, Option.getD_some]
    fin_cases hm <;> decide

theorem isWsChar_upChar (c : Char) : isWsChar (upChar c) = isWsChar c := by
  cases h : assocBy upTable c with
  | none => simp [upChar, h]
  | some u =>
    have hm := assocBy_mem h
    simp only [upChar, h, Option.getD_some]
    fin_cases hm <;> decide

theorem dropWhile_map_upChar (l : List Char) :
    (l.dropWhile isWsChar).map upChar = (l.map upChar).dropWhile isWsChar := by
  induction l with
  | nil => simp
  | cons a l ih =>
    cases hpa : isWsChar a with
    | true => simp [List.dropWhile_cons, hpa, isWsChar_upChar, ih]
    | false => simp [List.dropWhile_cons, hpa, isWsChar_upChar]

theorem dropWhile_idem (p : Char → Bool) (l : List Char) :
    (l.dropWhile p).dropWhile p = l.dropWhile p := by
  induction l with
  | nil => simp
  | cons a l ih =>
    cases hpa : p a with
    | true => simp [List.dropWhile_cons, hpa, ih]
    | false => simp [List.dropWhile_cons, hpa]

theorem dropWhile_eq_self_of_isPrefix (p : Char → Bool) (y z : List Char)
    (hy : y.dropWhile p = y) (hz : z <+: y) : z.dropWhile p = z := by
  cases z with
  | nil => simp
  | cons c zs =>
    obtain ⟨t, ht⟩ := hz
    have hy' : y = c :: (zs ++ t) := by rw [← ht]; simp
    have hpc : p c = false := by
      by_contra hpc
      have hpc' : p c = true := by
        cases hcc : p c
        · exact absurd hcc hpc
        · rfl
      rw [hy', List.dropWhile_cons, hpc', if_pos rfl] at hy
      have hlen : (List.dropWhile p (zs ++ t)).length = (zs ++ t).length + 1 := by
        rw [hy, List.length_cons]
      have hle := (List.dropWhile_sublist (l := zs ++ t) p).length_le
      omega
    rw [List.dropWhile_cons, hpc]
    simp

theorem pyUpper_pyStrip_comm (l : List Char) :
    pyUpper (pyStrip l) = pyStrip (pyUpper l) := by
  unfold pyUpper pyStrip
  rw [List.map_reverse, dropWhile_map_upChar, List.map_reverse, dropWhile_map_upChar]

theorem pyUpper_idem (l : List Char) : pyUpper (pyUpper l) = pyUpper l := by
  unfold pyUpper
  rw [List.map_map]
  exact List.map_congr_left (fun a _ => upChar_idem a)

theorem pyStrip_idem (l : List Char) : pyStrip (pyStrip l) = pyStrip l := by
  set x := l.dropWhile isWsChar with hx
  have h1 : x.dropWhile isWsChar = x := by rw [hx]; exact dropWhile_idem _ _
  have hpre : (x.reverse.dropWhile isWsChar).reverse <+: x := by
    have hsfx : x.reverse.dropWhile isWsChar <:+ x.reverse :=
      ⟨x.reverse.takeWhile isWsChar, List.takeWhile_append_dropWhile _ _⟩
    obtain ⟨t, ht⟩ := hsfx
    refine ⟨t.reverse, ?_⟩
    have := congrArg List.reverse ht
    simpa [List.reverse_append] using this
  have h2 : ((x.reverse.dropWhile isWsChar).reverse).dropWhile isWsChar =
      (x.reverse.dropWhile isWsChar).reverse :=
    dropWhile_eq_self_of_isPrefix isWsChar x _ h1 hpre
  show ((((x.reverse.dropWhile isWsChar).reverse.dropWhile
      isWsChar).reverse.dropWhile isWsChar).reverse) =
    (x.reverse.dropWhile isWsChar).reverse
  rw [h2, List.reverse_reverse, dropWhile_idem]

theorem normTicker_stable (t : List Char) :
    normTicker (pyUpper (pyStrip t)) = normTicker t := by
  unfold normTicker
  rw [pyUpper_idem, pyUpper_pyStrip_comm, pyStrip_idem]

/-- C10: classification is invariant under letter case and surrounding
whitespace: classifying a raw ticker gives the same class as classifying
its uppercased, stripped form, because `classify_asset` uppercases and
strips before applying any rule. -/
theorem classify_case_whitespace_invariant (t : List Char) :
    classify_asset t = classify_asset (pyUpper (pyStrip t)) := by
  unfold classify_asset
  rw [normTicker_stable]

/-- Model of a row of the `stocks` table (`models/stock.py`), restricted to
the columns the ranking engine reads and writes.  Optional fields are SQL
NULLable columns. -/
structure MStock where
  ticker : String
  setor : Option String := none
  asset_class : String := "acao"
  cotacao : Option ℚ := none
  pl : Option ℚ := none
  pvp : Option ℚ := none
  psr : Option ℚ := none
  div_yield : Option ℚ := none
  ev_ebit : Option ℚ := none
  ev_ebitda : Option ℚ := none
  roe : Option ℚ := none
  roic : Option ℚ := none
  margem_liquida : Option ℚ := none
  margem_ebit : Option ℚ := none
  liquidity : Option ℚ := none
  volume : Option ℚ := none
  score_final : Option ℚ := none
  rank_posicao : Option ℕ := none
  deriving DecidableEq

/-- The numeric entries of the dictionary produced by `Stock.to_dict`. -/
def stockDict (s : MStock) : List (String × Option ℚ) :=
  [("cotacao", s.cotacao), ("pl", s.pl), ("pvp", s.pvp), ("psr", s.psr),
   ("div_yield", s.div_yield), ("ev_ebit", s.ev_ebit), ("ev_ebitda", s.ev_ebitda),
   ("roe", s.roe), ("roic", s.roic), ("margem_liquida", s.margem_liquida),
   ("margem_ebit", s.margem_ebit), ("liquidity", s.liquidity),
   ("volume", s.volume)]

/-- Numeric field lookup `stock_data.get(field_name)`: names that are not
numeric columns of the model (e.g. `vacancia`, `desconto_premium`,
`taxa_adm`) are absent and read as `none`. -/
def stockField (s : MStock) (f : String) : Option ℚ :=
  (assocBy (stockDict s) f).getD none

/-- `Config.DEFAULT_WEIGHTS`. -/
def defaultWeights : List (String × ℚ) :=
  [("dy", 0.25), ("pl", 0.20), ("pvp", 0.20), ("roe", 0.20),
   ("margem_liquida", 0.15)]

/-- `IndicatorCalculator.calculate_stock_score`: score a stock row from its
dictionary and its stored asset class. -/
def calcStockScore (s : MStock) (w : List (String × ℚ)) : Option ℚ :=
  calculate_score_by_class (stockField s) w s.asset_class

/-- Sort key used by `ORDER BY score_final DESC` over rows whose score is
present. -/
def scoreKey (s : MStock) : ℚ := s.score_final.getD 0

/-- Descending-score ordering relation for the ranking query. -/
def rDesc (a b : MStock) : Prop := scoreKey b ≤ scoreKey a

instance : DecidableRel rDesc := fun a b => inferInstanceAs (Decidable (_ ≤ _))

instance : IsTotal MStock rDesc := ⟨fun a b => le_total (scoreKey b) (scoreKey a)⟩

instance : IsTrans MStock rDesc := ⟨fun _ _ _ h1 h2 => le_trans h2 h1⟩

/-- `ORDER BY score_final DESC` as a stable sort in store order. -/
def sortByScoreDesc (l : List MStock) : List MStock := l.insertionSort rDesc

/-- The score-writing sweep of `RankingService.update_ranking`: each stock's
score is recomputed, and `score_final` is overwritten only when the new
score is present (`if new_score is not None`). -/
def updateScores (db : List MStock) (w : List (String × ℚ)) : List MStock :=
  db.map (fun s =>
    match calcStockScore s w with
    | some v => { s with score_final := some v }
    | none => s)

/-- The `enumerate(stocks, 1)` rank assignment paired with each ticker. -/
def ranksFrom (n : ℕ) : List MStock → List (String × ℕ)
  | [] => []
  | s :: rest => (s.ticker, n) :: ranksFrom (n + 1) rest

/-- Ticker-to-position table of `RankingService._update_ranking_positions`:
the scored rows sorted by descending score, enumerated from 1. -/
def rankedTickers (db : List MStock) : List (String × ℕ) :=
  ranksFrom 1 (sortByScoreDesc (db.filter (fun s => s.score_final.isSome)))

/-- `RankingService._update_ranking_positions`: every scored row receives its
position in the descending-score order; rows without a score are untouched
(their `rank_posicao` is never cleared). -/
def updatePositions (db : List MStock) : List MStock :=
  db.map (fun s =>
    match assocBy (rankedTickers db) s.ticker with
    | some r => { s with rank_posicao := some r }
    | none => s)

/-- `RankingService.update_ranking`: recompute scores, then positions; the
returned count is the number of stocks whose score computation succeeded. -/
def update_ranking (db : List MStock) (w : List (String × ℚ)) :
    List MStock × ℕ :=
  (updatePositions (updateScores db w),
   (db.filter (fun s => (calcStockScore s w).isSome)).length)

theorem updatePositions_score (db : List MStock) (i : ℕ) :
    ((updatePositions db)[i]?.map MStock.score_final) =
      (db[i]?.map MStock.score_final) := by
  unfold updatePositions
  rw [List.getElem?_map]
  cases h : db[i]? with
  | none => rfl
  | some s =>
    simp only [Option.map_some']
    cases assocBy (rankedTickers db) s.ticker <;> rfl

/-- C5 (amended): when the scoring engine returns `none` for a stock during
`update_ranking`, that stock's stored `score_final` is left unchanged — a
previously scored asset keeps its old score and does not revert to the
unscored state. -/
theorem update_ranking_keeps_score_when_unscorable (db : List MStock)
    (w : List (String × ℚ)) (i : ℕ) (s : MStock) (hs : db[i]? = some s)
    (hnone : calcStockScore s w = none) :
    ((update_ranking db w).1)[i]?.map MStock.score_final = some s.score_final := by
  unfold update_ranking
  rw [updatePositions_score]
  unfold updateScores
  rw [List.getElem?_map, hs]
  simp [hnone]

/-- Stock used in the ranking counterexamples: it carries a previously
computed score but all of its raw indicators are missing. -/
def staleStock : MStock := { ticker := "XAAA3", score_final := some 50 }

theorem usableEntries_data_none (data : String → Option ℚ) (cls : String)
    (wl : List (String × ℚ)) (h : ∀ f, data f = none) :
    usableEntries data cls wl = [] := by
  induction wl with
  | nil => rfl
  | cons p rest ih =>
    unfold usableEntries at ih ⊢
    rw [List.filterMap_cons, h (fieldForIndicator cls p.1)]
    have hnorm : normalize_indicator_by_class none p.1 cls = none := rfl
    rw [hnorm]
    simp only [Option.map_none', ite_self]
    exact ih

theorem assocBy_getD_none (l : List (String × Option ℚ))
    (h : ∀ q ∈ l, q.2 = none) (f : String) : (assocBy l f).getD none = none := by
  induction l with
  | nil => rfl
  | cons p rest ih =>
    unfold assocBy
    by_cases hf : f = p.1
    · rw [if_pos hf, Option.getD_some]
      exact h p (List.mem_cons_self _ _)
    · rw [if_neg hf]
      exact ih (fun q hq => h q (List.mem_cons_of_mem _ hq))

theorem staleStock_fields_none : ∀ f, stockField staleStock f = none := by
  intro f
  unfold stockField
  apply assocBy_getD_none
  intro q hq
  fin_cases hq <;> rfl

theorem calcStockScore_staleStock :
    calcStockScore staleStock defaultWeights = none := by
  have hE := usableEntries_data_none (stockField staleStock) staleStock.asset_class
      (weightsForClass staleStock.asset_class defaultWeights) staleStock_fields_none
  unfold calcStockScore calculate_score_by_class
  rw [scoreStep_foldl]
  simp [usableWeight, hE]

/-- Witness for the amended C5: the stale stock's score computation fails,
and recomputing the ranking leaves its stored score `50` in place. -/
theorem update_ranking_keeps_score_witness :
    ((update_ranking [staleStock] defaultWeights).1)[0]?.map MStock.score_final =
      some staleStock.score_final :=
  update_ranking_keeps_score_when_unscorable [staleStock] defaultWeights 0 staleStock
    rfl calcStockScore_staleStock

/-- Counterexample for C5: after a `Recompute` in which the engine returns
`none` for the stale stock, the stored row still carries `score_final = 50`
(and has been assigned rank 1), not the `nil` score the claim requires. -/
theorem update_ranking_not_reverting_counterexample :
    (update_ranking [staleStock] defaultWeights).1 =
      [{ staleStock with rank_posicao := some 1 }] ∧
    staleStock.score_final = some 50 := by
  refine ⟨?_, rfl⟩
  have h1 : updateScores [staleStock] defaultWeights = [staleStock] := by
    simp [updateScores, calcStockScore_staleStock]
  unfold update_ranking
  rw [h1]
  rfl

/-- `RankingService.get_stock_by_ticker`: the first stored row carrying the
ticker. -/
def getStockByTicker (db : List MStock) (t : String) : Option MStock :=
  db.find? (fun s => s.ticker == t)

/-- The sort key `x.get('score_final', 0)` used by `compare_stocks`: the
`to_dict` dictionary always contains the key `score_final`, so the default
`0` never applies and a nil score yields Python `None`. -/
def compareSortKey (s : MStock) : Option ℚ := s.score_final

/-- `RankingService.compare_stocks`.  Python's `list.sort` compares every
element's key at least once when the list has two or more elements, and any
comparison involving `None` raises `TypeError`; the raised exception is
modelled as `none`.  Otherwise the found rows are stably sorted by
descending score (`reverse=True` keeps equal keys in original order). -/
def compare_stocks (db : List MStock) (tickers : List String) :
    Option (List MStock) :=
  let found := tickers.filterMap (getStockByTicker db)
  if 2 ≤ found.length ∧ found.any (fun s => (compareSortKey s).isNone) then none
  else some (found.insertionSort rDesc)

/-- Scored comparison stock. -/
def cmpA : MStock := { ticker := "CMPA3", score_final := some 50 }

/-- Unscored comparison stock. -/
def cmpB : MStock := { ticker := "CMPB3" }

/-- C7 evaluation at the failing input: comparing a scored asset with a
nil-scored one makes `compare_stocks` raise `TypeError` (modelled `none`)
instead of returning the rows with the nil-scored one last. -/
theorem compare_stocks_type_error :
    compare_stocks [cmpA, cmpB] ["CMPA3", "CMPB3"] = none := by
  have hfound : ["CMPA3", "CMPB3"].filterMap (getStockByTicker [cmpA, cmpB]) =
      [cmpA, cmpB] := by decide
  unfold compare_stocks
  rw [hfound]
  rw [if_pos]
  refine ⟨by decide, ?_⟩
  decide

/-- `cotacao > 0` test of the fallback query. -/
def cotKey (s : MStock) : ℚ := s.cotacao.getD 0

/-- Descending-price ordering for the unscored fallback query. -/
def rCotDesc (a b : MStock) : Prop := cotKey b ≤ cotKey a

instance : DecidableRel rCotDesc := fun a b => inferInstanceAs (Decidable (_ ≤ _))

instance : IsTotal MStock rCotDesc := ⟨fun a b => le_total (cotKey b) (cotKey a)⟩

instance : IsTrans MStock rCotDesc := ⟨fun _ _ _ h1 h2 => le_trans h2 h1⟩

/-- Optional sector filter (`if sector_filter:`). -/
def sectorOk (sector : Option String) (s : MStock) : Bool :=
  match sector with
  | none => true
  | some sec => s.setor == some sec

/-- The paged scored query of `RankingService.get_current_ranking`: rows with
a score (and matching sector), ordered by descending score, offset by
`(page - 1) * per_page`, limited to `per_page`. -/
def scoredSlice (db : List MStock) (sector : Option String)
    (page perPage : ℕ) : List MStock :=
  (((db.filter (fun s => s.score_final.isSome && sectorOk sector s)).insertionSort
      rDesc).drop ((page - 1) * perPage)).take perPage

/-- The unscored fallback query: not among the page's tickers, score absent,
matching sector, price present and positive. -/
def fallbackPool (db : List MStock) (sector : Option String)
    (excl : List String) : List MStock :=
  db.filter (fun s => !(excl.contains s.ticker) && s.score_final.isNone &&
    sectorOk sector s && s.cotacao.isSome && decide (0 < cotKey s))

/-- The in-place defaulting loop of `get_current_ranking`: each `None`
among `score_final`, `rank_posicao`, `cotacao`, `div_yield`, `pl`, `pvp`,
`roe` and `margem_liquida` is overwritten (score with `0`, rank with
`999999`, the numeric fields with `0`). -/
def fillDefaults (s : MStock) : MStock :=
  { s with
    score_final := if s.score_final.isNone then some 0 else s.score_final,
    rank_posicao := if s.rank_posicao.isNone then some 999999 else s.rank_posicao,
    cotacao := if s.cotacao.isNone then some 0 else s.cotacao,
    div_yield := if s.div_yield.isNone then some 0 else s.div_yield,
    pl := if s.pl.isNone then some 0 else s.pl,
    pvp := if s.pvp.isNone then some 0 else s.pvp,
    roe := if s.roe.isNone then some 0 else s.roe,
    margem_liquida := if s.margem_liquida.isNone then some 0 else s.margem_liquida }

/-- The fallback rows appended by `get_current_ranking` when the scored page
is short: the pool ordered by descending price, offset by the ad hoc
previous-page arithmetic (with its hardcoded count of 18 scored rows),
limited to the space remaining on the page, each row defaulted in place. -/
def fallbackRows (db : List MStock) (sector : Option String)
    (page perPage : ℕ) : List MStock :=
  let slice := scoredSlice db sector page perPage
  let offset := (page - 1) * perPage
  let offset2 := if slice.length = 0 then offset - min 18 offset else offset
  let remaining := perPage - slice.length
  ((((fallbackPool db sector (slice.map MStock.ticker)).insertionSort
      rCotDesc).drop offset2).take remaining).map fillDefaults

/-- `RankingService.get_current_ranking`. -/
def get_current_ranking (db : List MStock) (sector : Option String)
    (page perPage : ℕ) : List MStock :=
  let slice := scoredSlice db sector page perPage
  if slice.length < perPage then slice ++ fallbackRows db sector page perPage
  else slice

/-- C9: whenever the scored page is short, `get_current_ranking` appends the
fallback rows, and every fallback row is an unscored pool row whose nil
fields were overwritten in place: its score becomes `0`, a nil rank becomes
`999999`, and nil price/indicator fields become `0` — so no fallback row
ever shows a nil score, rank, price, or indicator, and a caller cannot tell
a genuine zero from missing data. -/
theorem fallback_rows_defaulted (db : List MStock) (sector : Option String)
    (page perPage : ℕ) :
    ((scoredSlice db sector page perPage).length < perPage →
      get_current_ranking db sector page perPage =
        scoredSlice db sector page perPage ++ fallbackRows db sector page perPage) ∧
    (∀ x ∈ fallbackRows db sector page perPage,
      ∃ y, y.score_final = none ∧ x = fillDefaults y ∧
        x.score_final = some 0 ∧
        x.rank_posicao = some (y.rank_posicao.getD 999999) ∧
        x.cotacao = some (y.cotacao.getD 0) ∧
        x.div_yield = some (y.div_yield.getD 0) ∧
        x.pl = some (y.pl.getD 0) ∧
        x.pvp = some (y.pvp.getD 0) ∧
        x.roe = some (y.roe.getD 0) ∧
        x.margem_liquida = some (y.margem_liquida.getD 0)) := by
  constructor
  · intro h
    unfold get_current_ranking
    rw [if_pos h]
  · intro x hx
    unfold fallbackRows at hx
    simp only [List.mem_map] at hx
    obtain ⟨y, hy, rfl⟩ := hx
    have hy2 : y ∈ (fallbackPool db sector
        ((scoredSlice db sector page perPage).map MStock.ticker)).insertionSort rCotDesc := by
      have h1 := (List.take_sublist _ _).subset hy
      exact (List.drop_sublist _ _).subset h1
    have hy3 : y ∈ fallbackPool db sector
        ((scoredSlice db sector page perPage).map MStock.ticker) :=
      (List.perm_insertionSort rCotDesc _).subset hy2
    have hscore : y.score_final = none := by
      unfold fallbackPool at hy3
      rw [List.mem_filter] at hy3
      have := hy3.2
      simp only [Bool.and_eq_true, Option.isNone_iff_eq_none] at this
      exact this.1.1.1.2
    have hdef : ∀ {α : Type} (o : Option α) (d : α),
        (if o.isNone then some d else o) = some (o.getD d) := by
      intro α o d; cases o <;> rfl
    refine ⟨y, hscore, rfl, ?_, ?_, ?_, ?_, ?_, ?_, ?_, ?_⟩
    · show (if y.score_final.isNone then some 0 else y.score_final) = some 0
      rw [hscore]
      rfl
    all_goals exact hdef _ _

/-- Unscored stock with a positive price, used to exercise the fallback. -/
def fbStock : MStock := { ticker := "XFBK3", cotacao := some 10 }

/-- Witness for C9 at a concrete store: the single unscored row fills the
page remainder with its nil fields defaulted. -/
theorem fallback_rows_defaulted_witness :
    ∃ y, y.score_final = none ∧ fillDefaults fbStock = fillDefaults y ∧
      (fillDefaults fbStock).score_final = some 0 ∧
      (fillDefaults fbStock).rank_posicao = some (y.rank_posicao.getD 999999) ∧
      (fillDefaults fbStock).cotacao = some (y.cotacao.getD 0) ∧
      (fillDefaults fbStock).div_yield = some (y.div_yield.getD 0) ∧
      (fillDefaults fbStock).pl = some (y.pl.getD 0) ∧
      (fillDefaults fbStock).pvp = some (y.pvp.getD 0) ∧
      (fillDefaults fbStock).roe = some (y.roe.getD 0) ∧
      (fillDefaults fbStock).margem_liquida = some (y.margem_liquida.getD 0) :=
  (fallback_rows_defaulted [fbStock] none 1 2).2 (fillDefaults fbStock)
    (by
      have hslice : scoredSlice [fbStock] none 1 2 = [] := by decide
      have hpool : fallbackPool [fbStock] none (List.map MStock.ticker []) =
          [fbStock] := by
        unfold fallbackPool
        simp only [List.map_nil, List.filter]
        norm_num [sectorOk, cotKey, fbStock]
      unfold fallbackRows
      dsimp only
      rw [hslice, hpool]
      simp [List.insertionSort, List.orderedInsert])

theorem assoc_ranksFrom_get (L : List MStock) (hN : (L.map MStock.ticker).Nodup)
    (n j : ℕ) (hj : j < L.length) :
    assocBy (ranksFrom n L) (L.get ⟨j, hj⟩).ticker = some (n + j) := by
  induction L generalizing n j with
  | nil => exact absurd hj (Nat.not_lt_zero j)
  | cons s rest ih =>
    cases j with
    | zero =>
      show assocBy ((s.ticker, n) :: ranksFrom (n + 1) rest) s.ticker = some (n + 0)
      unfold assocBy
      rw [if_pos rfl, Nat.add_zero]
    | succ j =>
      have hj' : j < rest.length := Nat.lt_of_succ_lt_succ hj
      have hget : (s :: rest).get ⟨j + 1, hj⟩ = rest.get ⟨j, hj'⟩ := rfl
      have hne : (rest.get ⟨j, hj'⟩).ticker ≠ s.ticker := by
        intro heq
        rw [List.map_cons, List.nodup_cons] at hN
        exact hN.1 (heq ▸ List.mem_map_of_mem MStock.ticker (rest.get_mem _ _))
      rw [hget]
      show assocBy ((s.ticker, n) :: ranksFrom (n + 1) rest)
        (rest.get ⟨j, hj'⟩).ticker = some (n + (j + 1))
      unfold assocBy
      rw [if_neg hne]
      have hNr : (rest.map MStock.ticker).Nodup := by
        rw [List.map_cons, List.nodup_cons] at hN
        exact hN.2
      rw [ih hNr (n + 1) j hj']
      congr 1
      omega

theorem assoc_ranksFrom_not_mem (L : List MStock) (n : ℕ) (t : String)
    (ht : t ∉ L.map MStock.ticker) : assocBy (ranksFrom n L) t = none := by
  induction L generalizing n with
  | nil => rfl
  | cons s rest ih =>
    rw [List.map_cons, List.mem_cons] at ht
    push_neg at ht
    show assocBy ((s.ticker, n) :: ranksFrom (n + 1) rest) t = none
    unfold assocBy
    rw [if_neg ht.1]
    exact ih (n + 1) ht.2

theorem assoc_ranksFrom_inv (L : List MStock) (n : ℕ) (t : String) (r : ℕ)
    (h : assocBy (ranksFrom n L) t = some r) :
    ∃ j, ∃ hj : j < L.length, (L.get ⟨j, hj⟩).ticker = t ∧ r = n + j := by
  induction L generalizing n with
  | nil => exact absurd h (by simp [ranksFrom, assocBy])
  | cons s rest ih =>
    unfold ranksFrom assocBy at h
    split at h
    · rename_i heq
      injection h with h
      exact ⟨0, Nat.succ_pos _, heq.symm, by omega⟩
    · obtain ⟨j, hj, hjt, hr⟩ := ih (n + 1) h
      exact ⟨j + 1, Nat.succ_lt_succ hj, hjt, by omega⟩

/-- The per-row effect of `_update_ranking_positions`. -/
def applyRank (rt : List (String × ℕ)) (s : MStock) : MStock :=
  match assocBy rt s.ticker with
  | some r => { s with rank_posicao := some r }
  | none => s

theorem updatePositions_eq_map (db : List MStock) :
    updatePositions db = db.map (applyRank (rankedTickers db)) := rfl

theorem applyRank_score (rt : List (String × ℕ)) (s : MStock) :
    (applyRank rt s).score_final = s.score_final := by
  unfold applyRank
  cases assocBy rt s.ticker <;> rfl

theorem applyRank_ticker (rt : List (String × ℕ)) (s : MStock) :
    (applyRank rt s).ticker = s.ticker := by
  unfold applyRank
  cases assocBy rt s.ticker <;> rfl

theorem updateScores_ticker (db : List MStock) (w : List (String × ℚ)) :
    (updateScores db w).map MStock.ticker = db.map MStock.ticker := by
  unfold updateScores
  rw [List.map_map]
  apply List.map_congr_left
  intro s _
  show (match calcStockScore s w with
    | some v => { s with score_final := some v }
    | none => s).ticker = s.ticker
  cases calcStockScore s w <;> rfl

theorem applyRank_scoreKey (rt : List (String × ℕ)) (s : MStock) :
    scoreKey (applyRank rt s) = scoreKey s := by
  unfold scoreKey
  rw [applyRank_score]

/-- C2 (amended): after `update_ranking` over a store with distinct tickers,
the `rank_posicao` values across the scored rows are exactly the integers
`1..N` (no gaps, no duplicates), assigned in order of descending
`score_final` with ties ordered by the store's stable enumeration rather
than by ticker; rows left without a score keep whatever `rank_posicao` they
had before — the sweep never clears a stale rank. -/
theorem update_ranking_rank_invariants (db : List MStock)
    (w : List (String × ℚ)) (hN : (db.map MStock.ticker).Nodup) :
    (((update_ranking db w).1.filter (fun s => s.score_final.isSome)).map
        MStock.rank_posicao).Perm
      ((List.range ((update_ranking db w).1.filter
          (fun s => s.score_final.isSome)).length).map (fun i => some (i + 1))) ∧
    (∀ a ∈ (update_ranking db w).1, ∀ b ∈ (update_ranking db w).1,
      a.score_final.isSome → b.score_final.isSome →
      ∀ ra rb : ℕ, a.rank_posicao = some ra → b.rank_posicao = some rb →
        ra ≤ rb → scoreKey b ≤ scoreKey a) ∧
    (∀ i : ℕ, ∀ s, db[i]? = some s →
      ∀ t, ((update_ranking db w).1)[i]? = some t →
        t.score_final = none → t.rank_posicao = s.rank_posicao) := by
  have hN1 : ((updateScores db w).map MStock.ticker).Nodup := by
    rw [updateScores_ticker]; exact hN
  set db1 := updateScores db w with hdb1
  set F := db1.filter (fun s => s.score_final.isSome) with hF
  set L := sortByScoreDesc F with hL
  have hperm : L.Perm F := List.perm_insertionSort rDesc F
  have hNF : (F.map MStock.ticker).Nodup :=
    ((List.filter_sublist db1).map MStock.ticker).nodup hN1
  have hNL : (L.map MStock.ticker).Nodup := ((hperm.map MStock.ticker).nodup_iff).mpr hNF
  have hsorted : L.Sorted rDesc := List.sorted_insertionSort rDesc F
  have hdbF : (update_ranking db w).1 = db1.map (applyRank (ranksFrom 1 L)) := rfl
  have happly : ∀ x ∈ L, ∀ jx : Fin L.length, L.get jx = x →
      (applyRank (ranksFrom 1 L) x).rank_posicao = some (1 + jx.1) := by
    intro x _ jx hjx
    have hget := assoc_ranksFrom_get L hNL 1 jx.1 jx.2
    rw [hjx] at hget
    unfold applyRank
    rw [hget]
  have hfilter : (update_ranking db w).1.filter (fun s => s.score_final.isSome) =
      F.map (applyRank (ranksFrom 1 L)) := by
    rw [hdbF, List.filter_map]
    congr 1
    apply List.filter_congr
    intro s _
    show (applyRank (ranksFrom 1 L) s).score_final.isSome = s.score_final.isSome
    rw [applyRank_score]
  refine ⟨?_, ?_, ?_⟩
  · rw [hfilter, List.map_map, List.length_map, ← hperm.length_eq]
    have hLmap : L.map (MStock.rank_posicao ∘ applyRank (ranksFrom 1 L)) =
        (List.range L.length).map (fun i => some (i + 1)) := by
      apply List.ext_get
      · simp
      · intro n h1 h2
        have hn : n < L.length := by simpa using h1
        rw [List.get_map, List.get_map]
        have hr := happly (L.get ⟨n, hn⟩) (L.get_mem _ _) ⟨n, hn⟩ rfl
        show (applyRank (ranksFrom 1 L) (L.get _)).rank_posicao = _
        rw [hr, List.get_range, Nat.add_comm]
    refine ((hperm.map _).symm).trans ?_
    rw [hLmap]
  · intro a ha b hb hsa hsb ra rb hra hrb hle
    rw [hdbF] at ha hb
    obtain ⟨x, hxdb1, rfl⟩ := List.mem_map.mp ha
    obtain ⟨y, hydb1, rfl⟩ := List.mem_map.mp hb
    rw [applyRank_scoreKey, applyRank_scoreKey]
    have hxs : x.score_final.isSome := by rw [← applyRank_score (ranksFrom 1 L) x]; exact hsa
    have hys : y.score_final.isSome := by rw [← applyRank_score (ranksFrom 1 L) y]; exact hsb
    have hxL : x ∈ L := hperm.mem_iff.mpr (by rw [hF, List.mem_filter]; exact ⟨hxdb1, hxs⟩)
    have hyL : y ∈ L := hperm.mem_iff.mpr (by rw [hF, List.mem_filter]; exact ⟨hydb1, hys⟩)
    obtain ⟨jx, hjx⟩ := List.mem_iff_get.mp hxL
    obtain ⟨jy, hjy⟩ := List.mem_iff_get.mp hyL
    have hrx := happly x hxL jx hjx
    have hry := happly y hyL jy hjy
    rw [hra] at hrx
    rw [hrb] at hry
    injection hrx with hrx
    injection hry with hry
    have hj : jx.1 ≤ jy.1 := by omega
    rcases Nat.lt_or_ge jx.1 jy.1 with hlt | hge
    · have := List.pairwise_iff_get.mp hsorted jx jy hlt
      rw [hjx, hjy] at this
      exact this
    · have hjeq : jx.1 = jy.1 := Nat.le_antisymm hj hge
      have : x = y := by
        rw [← hjx, ← hjy]
        congr 1
        exact Fin.ext hjeq
      rw [this]
  · intro i s hs t ht hscore
    rw [hdbF, List.getElem?_map] at ht
    have hdb1i : db1[i]? = some (match calcStockScore s w with
        | some v => { s with score_final := some v }
        | none => s) := by
      rw [hdb1]
      unfold updateScores
      rw [List.getElem?_map, hs]
      rfl
    rw [hdb1i] at ht
    simp only [Option.map_some', Option.some.injEq] at ht
    have hcalc : calcStockScore s w = none := by
      by_contra hc
      obtain ⟨v, hv⟩ := Option.ne_none_iff_exists'.mp hc
      rw [hv] at ht
      rw [← ht] at hscore
      rw [applyRank_score] at hscore
      exact absurd hscore (by simp)
    rw [hcalc] at ht
    have hsmem : s ∈ db1 := by
      have hsome : db1[i]? = some s := by rw [hdb1i, hcalc]
      rw [List.getElem?_eq_some] at hsome
      obtain ⟨h, hEq⟩ := hsome
      exact hEq ▸ List.getElem_mem h
    have hnotin : s.ticker ∉ L.map MStock.ticker := by
      intro hmem
      obtain ⟨z, hzL, hzt⟩ := List.mem_map.mp hmem
      have hzF : z ∈ F := hperm.mem_iff.mp hzL
      rw [hF, List.mem_filter] at hzF
      have hzs : z = s :=
        List.inj_on_of_nodup_map hN1 hzF.1 hsmem hzt
      rw [hzs] at hzF
      have : s.score_final = none := by
        have h1 : (applyRank (ranksFrom 1 L) s).score_final = none := by
          rw [ht]; exact hscore
        rw [applyRank_score] at h1
        exact h1
      rw [this] at hzF
      exact absurd hzF.2 (by simp)
    have happn : applyRank (ranksFrom 1 L) s = s := by
      unfold applyRank
      rw [assoc_ranksFrom_not_mem L 1 s.ticker hnotin]
    rw [← ht, happn]

/-- Stock stored first, with P/E 25 (score 50) and the lexicographically
larger ticker. -/
def c2B : MStock := { ticker := "BBB3", pl := some 25 }

/-- Stock stored second, with the same score and the smaller ticker. -/
def c2A : MStock := { ticker := "AAA3", pl := some 25 }

/-- Unscored stock carrying a stale rank from an earlier state. -/
def c2C : MStock := { ticker := "CCC3", rank_posicao := some 7 }

/-- The ranking counterexample store. -/
def c2Store : List MStock := [c2B, c2A, c2C]

theorem calc_c2B : calcStockScore c2B defaultWeights = some 50 := by
  simp +decide only [calcStockScore, c2B, stockField, stockDict, assocBy,
    Option.getD, calculate_score_by_class, weightsForClass, scoreStep,
    List.foldl, fieldForIndicator, indicatorsForClass,
    normalize_indicator_by_class, limitsForClass, indicatorLimits,
    lowerIsBetter, defaultWeights]
  norm_num

theorem calc_c2A : calcStockScore c2A defaultWeights = some 50 := by
  simp +decide only [calcStockScore, c2A, stockField, stockDict, assocBy,
    Option.getD, calculate_score_by_class, weightsForClass, scoreStep,
    List.foldl, fieldForIndicator, indicatorsForClass,
    normalize_indicator_by_class, limitsForClass, indicatorLimits,
    lowerIsBetter, defaultWeights]
  norm_num

theorem calc_c2C : calcStockScore c2C defaultWeights = none := by
  have hf : ∀ f, stockField c2C f = none := by
    intro f
    unfold stockField
    apply assocBy_getD_none
    intro q hq
    fin_cases hq <;> rfl
  have hE := usableEntries_data_none (stockField c2C) c2C.asset_class
      (weightsForClass c2C.asset_class defaultWeights) hf
  unfold calcStockScore calculate_score_by_class
  rw [scoreStep_foldl]
  simp [usableWeight, hE]

theorem c2_scores : updateScores c2Store defaultWeights =
    [{ c2B with score_final := some 50 }, { c2A with score_final := some 50 }, c2C] := by
  unfold updateScores c2Store
  rw [List.map_cons, List.map_cons, List.map_cons, List.map_nil]
  rw [calc_c2B, calc_c2A, calc_c2C]

theorem c2_ranked : rankedTickers
    [{ c2B with score_final := some 50 }, { c2A with score_final := some 50 }, c2C] =
    [("BBB3", 1), ("AAA3", 2)] := by
  unfold rankedTickers sortByScoreDesc
  have hfil : List.filter (fun s => s.score_final.isSome)
      [{ c2B with score_final := some 50 }, { c2A with score_final := some 50 }, c2C] =
      [{ c2B with score_final := some 50 }, { c2A with score_final := some 50 }] := by
    simp [List.filter, c2C]
  rw [hfil]
  have hsort : List.insertionSort rDesc
      [{ c2B with score_final := some 50 }, { c2A with score_final := some 50 }] =
      [{ c2B with score_final := some 50 }, { c2A with score_final := some 50 }] := by
    simp only [List.insertionSort, List.orderedInsert]
    rw [if_pos (by norm_num [rDesc, scoreKey])]
  rw [hsort]
  rfl

/-- The first stock after recomputation: score 50, rank 1. -/
def c2ResB : MStock := { c2B with score_final := some 50, rank_posicao := some 1 }

/-- The second stock after recomputation: equal score, rank 2. -/
def c2ResA : MStock := { c2A with score_final := some 50, rank_posicao := some 2 }

theorem c2_positions : (update_ranking c2Store defaultWeights).1 =
    [c2ResB, c2ResA, c2C] := by
  show updatePositions (updateScores c2Store defaultWeights) = _
  rw [c2_scores, updatePositions_eq_map, c2_ranked]
  rw [List.map_cons, List.map_cons, List.map_cons, List.map_nil]
  have h1 : applyRank [("BBB3", 1), ("AAA3", 2)] { c2B with score_final := some 50 } =
      c2ResB := by
    simp +decide only [applyRank, assocBy, c2B, c2ResB]
  have h2 : applyRank [("BBB3", 1), ("AAA3", 2)] { c2A with score_final := some 50 } =
      c2ResA := by
    simp +decide only [applyRank, assocBy, c2A, c2ResA]
  have h3 : applyRank [("BBB3", 1), ("AAA3", 2)] c2C = c2C := by
    simp +decide only [applyRank, assocBy, c2C]
  rw [h1, h2, h3]

/-- Counterexample for C2: after `update_ranking` on the three-stock store,
the unscored stock keeps its stale rank `7` (nil score with non-nil rank),
and the two equally-scored stocks are ranked in store order, so the
lexicographically smaller ticker "AAA3" receives the larger rank — both
parts contradict the claim. -/
theorem update_ranking_rank_counterexample :
    ((update_ranking c2Store defaultWeights).1 = [c2ResB, c2ResA, c2C]) ∧
    (∃ x ∈ (update_ranking c2Store defaultWeights).1,
      x.score_final = none ∧ x.rank_posicao = some 7) ∧
    (∃ a ∈ (update_ranking c2Store defaultWeights).1,
     ∃ b ∈ (update_ranking c2Store defaultWeights).1,
      a.score_final = b.score_final ∧ a.ticker < b.ticker ∧
      ∃ ra rb : ℕ, a.rank_posicao = some ra ∧ b.rank_posicao = some rb ∧ rb < ra) := by
  refine ⟨c2_positions, ?_, ?_⟩
  · refine ⟨c2C, ?_, rfl, rfl⟩
    rw [c2_positions]
    simp
  · refine ⟨c2ResA, ?_, c2ResB, ?_, rfl, ?_, 2, 1, rfl, rfl, by omega⟩
    · rw [c2_positions]; simp
    · rw [c2_positions]; simp
    · show c2ResA.ticker < c2ResB.ticker
      show ("AAA3" : String) < "BBB3"
      rw [String.lt_iff_toList_lt]
      decide

/-- Witness for the amended C2 at the concrete store: the scored rows of the
recomputed store carry exactly the ranks `{1, 2}`. -/
theorem update_ranking_rank_invariants_witness :
    (((update_ranking c2Store defaultWeights).1.filter
        (fun s => s.score_final.isSome)).map MStock.rank_posicao).Perm
      ((List.range ((update_ranking c2Store defaultWeights).1.filter
          (fun s => s.score_final.isSome)).length).map (fun i => some (i + 1))) :=
  (update_ranking_rank_invariants c2Store defaultWeights (by decide)).1

end Stonks
